import Mathlib

namespace Rtfm

/-- Resource access mode (`Exclusive` / `Shared`).
Modelled from the spec: the `Access` enum of the application model (`ast`
module, not included in the sources); §3 "access mode ∈ {Exclusive, Shared}". -/
inductive Access where
  | Exclusive : Access
  | Shared : Access
deriving DecidableEq, Repr

/-- `Access::is_shared` -/
def Access.is_shared : Access → Bool
  | .Shared => true
  | .Exclusive => false

/-- `Access::is_exclusive` -/
def Access.is_exclusive : Access → Bool
  | .Shared => false
  | .Exclusive => true

/-- Resource ownership (`analyze.rs`, `enum Ownership`). Priorities are `u8`
values, embedded as `Nat`. -/
inductive Ownership where
  /-- Owned by a single task at `priority` -/
  | Owned (priority : Nat) : Ownership
  /-- Co-owned by more than one task, all at the same `priority` -/
  | CoOwned (priority : Nat) : Ownership
  /-- Contended by tasks at different priorities; `ceiling` is the priority ceiling -/
  | Contended (ceiling : Nat) : Ownership
deriving DecidableEq, Repr

/-- `Ownership::needs_lock` (`analyze.rs`): whether the resource needs a lock at
`priority`.  The `debug_assert!(*ceiling >= priority)` of the source is a
release-mode no-op; the invariant it asserts is proved separately. -/
def Ownership.needs_lock : Ownership → Nat → Bool
  | .Owned _, _ => false
  | .CoOwned _, _ => false
  | .Contended ceiling, priority => decide (priority < ceiling)

/-- `Ownership::is_owned` (`analyze.rs`). -/
def Ownership.is_owned : Ownership → Bool
  | .Owned _ => true
  | _ => false

/-- The priority/ceiling field stored in an `Ownership` value. -/
def Ownership.maxPrio : Ownership → Nat
  | .Owned p => p
  | .CoOwned p => p
  | .Contended c => c

/-- Arguments of an `#[init]` routine.
Modelled from the spec: the `InitArgs` node of the application model (`ast`
module, not included in the sources); §6 "per-core init declaration
(late-resource subset claimed, resource-access list)".  `late` is the explicit
late-resource subset (empty when omitted); `resources` the init resource list. -/
structure InitArgs where
  late : List Nat
  resources : List Nat
deriving DecidableEq, Repr

/-- A software task declaration.
Modelled from the spec: the `SoftwareTask` node of the application model (`ast`
module, not included in the sources); §6 "kind, core, priority, input payload
types and queue capacity for software tasks".  Types are embedded as `Nat`
identifiers. -/
structure SoftwareTask where
  core : Nat
  priority : Nat
  capacity : Nat
  inputs : List Nat
deriving DecidableEq, Repr

/-- A resource-access tuple, as produced by `App::resource_accesses()`:
`(core, priority-or-none, resource name, access mode)`.  `prio = none` exactly
when the access originates from `init`. -/
structure RAccess where
  core : Nat
  prio : Option Nat
  name : Nat
  access : Access
deriving DecidableEq, Repr

/-- A spawn/schedule call tuple, as produced by `App::spawn_calls()` /
`App::schedule_calls()`: `(calling core, calling priority-or-none, task name)`. -/
structure Call where
  core : Nat
  prio : Option Nat
  name : Nat
deriving DecidableEq, Repr

/-- The application model consumed by the analysis.
Modelled from the spec: the `ast::App` structure is not included in the
sources; this carries exactly the fields `analyze.rs` and `check.rs` read, with
maps embedded as association lists in iteration order (resource and type names
as `Nat` identifiers).  §6 lists the same interface: resource declarations,
init/task declarations and the enumerable relations `resource_accesses()`,
`spawn_calls()`, `schedule_calls()`. -/
structure App where
  /-- `app.late_resources`: late resource declarations, `(name, type)` -/
  late_resources : List (Nat × Nat)
  /-- `app.resources`: non-late resource declarations, `(name, type)` -/
  resources : List (Nat × Nat)
  /-- `app.inits`: one init per core, keyed by core in ascending order -/
  inits : List (Nat × InitArgs)
  /-- `app.software_tasks`: software tasks, `(name, task)` -/
  software_tasks : List (Nat × SoftwareTask)
  /-- `app.hardware_tasks`: the `binds` interrupt of each hardware task -/
  hardware_task_binds : List Nat
  /-- `app.args.extern_interrupts`: interrupt lines reserved for dispatchers -/
  extern_interrupts : List Nat
  /-- `app.resource_accesses()` -/
  resource_accesses : List RAccess
  /-- `app.spawn_calls()` -/
  spawn_calls : List Call
  /-- `app.schedule_calls()` -/
  schedule_calls : List Call
deriving DecidableEq, Repr

/-- `app.resource(name)`: whether `name` is declared (late or not). -/
def App.resourceDeclared (a : App) (name : Nat) : Bool :=
  (a.late_resources.map Prod.fst ++ a.resources.map Prod.fst).contains name

/-- The type of a declared resource (`app.resource(name).0.ty`); `0` at
undeclared names, which validated models never query. -/
def App.resourceTy (a : App) (name : Nat) : Nat :=
  (((a.late_resources ++ a.resources).lookup name).getD 0)

/-- Lookup in `app.software_tasks`; indexing in the source panics on a missing
name, which validated models never produce. -/
def App.task (a : App) (name : Nat) : Option SoftwareTask :=
  (a.software_tasks.lookup name)

/-- `app.software_tasks[name].args.capacity` (0 at missing names). -/
def App.taskCapacity (a : App) (name : Nat) : Nat :=
  ((a.task name).map SoftwareTask.capacity).getD 0

/-- `app.software_tasks[name].args.priority` (0 at missing names). -/
def App.taskPriority (a : App) (name : Nat) : Nat :=
  ((a.task name).map SoftwareTask.priority).getD 0

/-- The declared late-resource name set (`app.late_resources.keys()`). -/
def App.declaredLate (a : App) : Finset Nat :=
  (a.late_resources.map Prod.fst).toFinset

/-! ### Late-resource assignment (`analyze.rs`, step a) -/

/-- A finite map from cores to resource-name sets, with its key set
(`BTreeMap<Core, BTreeSet<Resource>>`). -/
structure LateMap where
  f : Nat → Finset Nat
  dom : Finset Nat

/-- State of the late-resource assignment loop: the map being built, the pool
of not yet claimed late resources (`resources` in the source) and the core of
the init with an empty late list, if seen (`rest`). -/
structure LRState where
  f : Nat → Finset Nat
  dom : Finset Nat
  pool : Finset Nat
  rest : Option Nat

/-- One iteration of the `for (&core, init) in &app.inits` loop of step a.
`debug_assert!(rest.is_none())` is a release-mode no-op. -/
def lateStep (st : LRState) (ci : Nat × InitArgs) : LRState :=
  if ci.2.late.isEmpty then
    { st with rest := some ci.1 }
  else
    { f := Function.update st.f ci.1 (st.f ci.1 ∪ ci.2.late.toFinset)
      dom := insert ci.1 st.dom
      pool := st.pool \ ci.2.late.toFinset
      rest := st.rest }

/-- Step a of `analyze::app`: which core initializes which late resources.
The final `late_resources.insert(rest, resources)` is a `BTreeMap` insert,
hence an overwrite at the `rest` core. -/
def lateResourcesMap (a : App) : LateMap :=
  if a.late_resources.isEmpty then ⟨fun _ => ∅, ∅⟩
  else
    let st := a.inits.foldl lateStep ⟨fun _ => ∅, ∅, a.declaredLate, none⟩
    match st.rest with
    | none => ⟨st.f, st.dom⟩
    | some c => ⟨Function.update st.f c st.pool, insert c st.dom⟩

/-! ### Ownership and ceiling analysis (`analyze.rs`, step c) -/

/-- The ownership transition of step c for one prioritized access, given the
existing entry: the first match arm sends any entry at a different
priority/ceiling to `Contended { ceiling: max }`; `Owned` at the same priority
becomes `CoOwned`; anything else is left unchanged. -/
def updateOwnership (o : Ownership) (priority : Nat) : Ownership :=
  match o with
  | .Owned ceiling =>
      if priority ≠ ceiling then .Contended (max ceiling priority) else .CoOwned priority
  | .CoOwned ceiling =>
      if priority ≠ ceiling then .Contended (max ceiling priority) else o
  | .Contended ceiling =>
      if priority ≠ ceiling then .Contended (max ceiling priority) else o

/-- Step c of the `for (core, prio, name, access) in app.resource_accesses()`
loop, restricted to the `ownerships` map it builds: accesses with no priority
(init) leave the map unchanged; otherwise the entry for `name` is created as
`Owned { priority }` or transitioned by `updateOwnership`. -/
def ownershipStep (m : Nat → Option Ownership) (t : RAccess) : Nat → Option Ownership :=
  match t.prio with
  | none => m
  | some priority =>
      match m t.name with
      | some o => Function.update m t.name (some (updateOwnership o priority))
      | none => Function.update m t.name (some (.Owned priority))

/-- The `ownerships` map after the resource-access loop of `analyze::app`. -/
def ownerships (a : App) : Nat → Option Ownership :=
  a.resource_accesses.foldl ownershipStep (fun _ => none)

/-- The fixed priorities of the accesses to `name`, in access order: the
subsequence of `resource_accesses()` tuples naming `name` that carry a
priority. -/
def accessPrios (a : App) (name : Nat) : List Nat :=
  (a.resource_accesses.filter (fun t => t.name = name)).filterMap RAccess.prio

/-! ### Initialization barriers (`analyze.rs`, step f) -/

/-- Step f of the resource-access loop: for the access's core (the receiver),
every core of the late-resource map that differs from it and initializes the
accessed resource is inserted as a sender into the receiver's barrier set. -/
def barrierStep (lr : LateMap) (b : Nat → Finset Nat) (t : RAccess) : Nat → Finset Nat :=
  Function.update b t.core
    (b t.core ∪ lr.dom.filter (fun sender => sender ≠ t.core ∧ t.name ∈ lr.f sender))

/-- The `initialization_barriers` map after the resource-access loop:
receiver core ↦ set of initializer (sender) cores it must wait for. -/
def initializationBarriers (a : App) : Nat → Finset Nat :=
  a.resource_accesses.foldl (barrierStep (lateResourcesMap a)) (fun _ => ∅)

/-! ### Send types (`analyze.rs`, late-resource and init-resource rules) -/

/-- `send_types.insert` iterated over a list of input types (the
`inputs.iter().for_each(|input| send_types.insert(input.ty.clone()))` calls). -/
def insertTys (s : Finset Nat) (tys : List Nat) : Finset Nat :=
  tys.foldl (fun acc ty => insert ty acc) s

/-- The two Send insertions of the spawn/schedule loops: the input types are
inserted into the spawner core's set and then into the spawnee core's set. -/
def addSend (snd : Nat → Finset Nat) (spawner spawnee : Nat) (tys : List Nat) :
    Nat → Finset Nat :=
  let s1 := Function.update snd spawner (insertTys (snd spawner) tys)
  Function.update s1 spawnee (insertTys (s1 spawnee) tys)

/-- "Most late resources need to be `Send`": one iteration over
`app.late_resources` — if the resource has an ownership entry different from
`Owned { priority: 0 }`, its type is inserted into core 0's Send set
(`send_types.entry(0)` in the source). -/
def sendLateStep (own : Nat → Option Ownership) (s : Nat → Finset Nat) (r : Nat × Nat) :
    Nat → Finset Nat :=
  match own r.1 with
  | some o =>
      if o ≠ .Owned 0 then Function.update s 0 (insert r.2 (s 0)) else s
  | none => s

/-- "All resources shared with `init` need to be `Send`": one iteration over
the init resource lists — an owned resource with ownership different from
`Owned { priority: 0 }` has its declared type (`app.resources[name].ty`)
inserted into core 0's Send set. -/
def sendInitStep (a : App) (s : Nat → Finset Nat) (name : Nat) : Nat → Finset Nat :=
  match ownerships a name with
  | some o =>
      if o ≠ .Owned 0 then
        Function.update s 0 (insert ((a.resources.lookup name).getD 0) (s 0))
      else s
  | none => s

/-- The Send set after the late-resource rule and the init-resource rule,
before the spawn and schedule loops. -/
def sendTypes0 (a : App) : Nat → Finset Nat :=
  ((a.inits.map (fun ci => ci.2.resources)).flatten).foldl (sendInitStep a)
    (a.late_resources.foldl (sendLateStep (ownerships a)) (fun _ => ∅))

/-! ### Timer queues (`analyze.rs`, initialization and steps k–o) -/

/-- The timer queue (`struct TimerQueue`). -/
structure TimerQueue where
  capacity : Nat
  ceiling : Nat
  priority : Nat
  tasks : Finset Nat
deriving DecidableEq

/-- `TimerQueue::default`: capacity 0, ceiling 1, priority 1, no tasks. -/
def TimerQueue.default : TimerQueue :=
  { capacity := 0, ceiling := 1, priority := 1, tasks := ∅ }

/-- "Initialize the timer queues": one iteration of the first
`app.schedule_calls()` loop.  The schedulee lookup (`app.software_tasks[name]`)
panics on a missing name in the source; validated models never reach that. -/
def tqInitStep (a : App) (m : Nat → Option TimerQueue) (c : Call) :
    Nat → Option TimerQueue :=
  match a.task c.name with
  | none => m
  | some schedulee =>
      let tq := (m c.core).getD TimerQueue.default
      let tq := { tq with tasks := insert c.name tq.tasks }
      let prio := max tq.priority schedulee.priority
      Function.update m c.core (some { tq with priority := prio, ceiling := prio })

/-- The timer queues after the first `schedule_calls()` loop. -/
def timerQueues1 (a : App) : Nat → Option TimerQueue :=
  a.schedule_calls.foldl (tqInitStep a) (fun _ => none)

/-- The effect of one first-loop iteration on the single timer-queue entry of
the scheduling core (the projection of `tqInitStep` at that core). -/
def tqLocalStep (a : App) (o : Option TimerQueue) (c : Call) : Option TimerQueue :=
  match a.task c.name with
  | none => o
  | some schedulee =>
      let tq := o.getD TimerQueue.default
      let tq := { tq with tasks := insert c.name tq.tasks }
      let prio := max tq.priority schedulee.priority
      some { tq with priority := prio, ceiling := prio }

/-- The effect of one second-loop iteration on the single timer-queue entry of
the scheduling core (the projection of `schedStep` at that core): step m raises
the ceiling by each fixed scheduler priority. -/
def tq2Local (a : App) (o : Option TimerQueue) (c : Call) : Option TimerQueue :=
  match a.task c.name with
  | none => o
  | some _ =>
      match o with
      | none => o
      | some tq =>
          match c.prio with
          | some prio => some { tq with ceiling := max tq.ceiling prio }
          | none => o

/-! ### Channels and the spawn/schedule loops (`analyze.rs`, steps g–o) -/

/-- An SPSC channel (`struct Channel`); `ceiling` is `Option` as in the
source's `type Ceiling = Option<u8>`. -/
structure Channel where
  capacity : Nat
  ceiling : Option Nat
  tasks : Finset Nat
deriving DecidableEq

/-- `Channel::default`. -/
def Channel.default : Channel :=
  { capacity := 0, ceiling := none, tasks := ∅ }

/-- `Channels`: receiver core ↦ dispatch priority ↦ sender core ↦ channel. -/
def Channels : Type := Nat → Nat → Nat → Option Channel

/-- Writing one entry of the nested channel map. -/
def setCh (m : Channels) (r p s : Nat) (ch : Channel) : Channels :=
  fun r2 p2 s2 => if r2 = r ∧ p2 = p ∧ s2 = s then some ch else m r2 p2 s2

/-- One iteration of the `app.spawn_calls()` loop, restricted to the state the
claims need: the channel map (steps h, i) and the Send sets (step j).  The
free-queue updates of step g touch neither. -/
def spawnStep (a : App) (st : Channels × (Nat → Finset Nat)) (c : Call) :
    Channels × (Nat → Finset Nat) :=
  match a.task c.name with
  | none => st
  | some spawnee =>
      let ch := (st.1 spawnee.core spawnee.priority c.core).getD Channel.default
      let ch := { ch with tasks := insert c.name ch.tasks }
      match c.prio with
      | some prio =>
          let ch := { ch with
            ceiling := some (match ch.ceiling with
              | none => prio
              | some ceil => max prio ceil) }
          let snd :=
            if c.core = spawnee.core ∧ spawnee.priority ≠ prio then
              addSend st.2 c.core spawnee.core spawnee.inputs
            else st.2
          (setCh st.1 spawnee.core spawnee.priority c.core ch, snd)
      | none =>
          let snd :=
            if c.core = spawnee.core then
              addSend st.2 c.core spawnee.core spawnee.inputs
            else st.2
          (setCh st.1 spawnee.core spawnee.priority c.core ch, snd)

/-- The channel map and Send sets after the `spawn_calls()` loop. -/
def spawnOut (a : App) : Channels × (Nat → Finset Nat) :=
  a.spawn_calls.foldl (spawnStep a) (fun _ _ _ => none, sendTypes0 a)

/-- One iteration of the second `app.schedule_calls()` loop (steps k–o),
restricted to the channel map, the timer queues and the Send sets.  The
`timer_queues.get_mut(&scheduler_core).expect("UNREACHABLE")` lookup cannot
fail because the first loop ran over the same call list; a missing entry is
modelled as leaving the state unchanged. -/
def schedStep (a : App)
    (st : Channels × (Nat → Option TimerQueue) × (Nat → Finset Nat)) (c : Call) :
    Channels × (Nat → Option TimerQueue) × (Nat → Finset Nat) :=
  match a.task c.name with
  | none => st
  | some schedulee =>
      match st.2.1 c.core with
      | none => st
      | some tq =>
          let ch := (st.1 schedulee.core schedulee.priority c.core).getD Channel.default
          let ch := { ch with tasks := insert c.name ch.tasks }
          let ch := { ch with
            ceiling := some (match ch.ceiling with
              | none => tq.priority
              | some ceil => max ceil tq.priority) }
          match c.prio with
          | some prio =>
              let tq := { tq with ceiling := max tq.ceiling prio }
              let snd :=
                if c.core = schedulee.core ∧ schedulee.priority ≠ prio then
                  addSend st.2.2 c.core schedulee.core schedulee.inputs
                else st.2.2
              (setCh st.1 schedulee.core schedulee.priority c.core ch,
               Function.update st.2.1 c.core (some tq), snd)
          | none =>
              let snd :=
                if c.core = schedulee.core then
                  addSend st.2.2 c.core schedulee.core schedulee.inputs
                else st.2.2
              (setCh st.1 schedulee.core schedulee.priority c.core ch, st.2.1, snd)

/-- Channel map, timer queues and Send sets after the second `schedule_calls()`
loop. -/
def schedOut (a : App) : Channels × (Nat → Option TimerQueue) × (Nat → Finset Nat) :=
  a.schedule_calls.foldl (schedStep a) ((spawnOut a).1, timerQueues1 a, (spawnOut a).2)

/-- "Compute channel capacities": every channel's capacity becomes the sum of
the declared capacities of its tasks.  The sum is over `u8` values, hence the
`% 256` (the source wraps in release builds; debug builds panic on overflow). -/
def channels (a : App) : Channels :=
  fun r p s =>
    ((schedOut a).1 r p s).map fun ch =>
      { ch with capacity := (∑ n ∈ ch.tasks, a.taskCapacity n) % 256 }

/-- "Compute the capacity of the timer queues", with the same `u8` sum. -/
def timerQueues (a : App) : Nat → Option TimerQueue :=
  fun c =>
    ((schedOut a).2.1 c).map fun tq =>
      { tq with capacity := (∑ n ∈ tq.tasks, a.taskCapacity n) % 256 }

/-- The final per-core Send sets. -/
def sendTypes (a : App) : Nat → Finset Nat :=
  (schedOut a).2.2

/-! ### The validation pass (`check.rs`) -/

/-- The errors `check::app` can return (the source attaches spans and message
strings; only the cause matters here). -/
inductive CheckError where
  | undeclaredResource (name : Nat) : CheckError
  | sharedExclusive (name : Nat) : CheckError
  | lateNoInit : CheckError
  | dispatcherHardwareTask (binds : Nat) : CheckError
deriving DecidableEq, Repr

/-- `check::app`: the validation pass.  The `owners` set the first loop builds
is never read afterwards and is omitted.  The four checks run in source order
and the first failing one produces the error. -/
def check (a : App) : Except CheckError Unit :=
  match a.resource_accesses.find? (fun t => !a.resourceDeclared t.name) with
  | some t => .error (.undeclaredResource t.name)
  | none =>
      let exclusive_accesses := a.resource_accesses.filterMap fun t =>
        if t.prio.isSome && t.access.is_exclusive then some t.name else none
      match a.resource_accesses.find?
          (fun t => t.access.is_shared && exclusive_accesses.contains t.name) with
      | some t => .error (.sharedExclusive t.name)
      | none =>
          if !a.late_resources.isEmpty && a.inits.isEmpty then
            .error .lateNoInit
          else
            match a.hardware_task_binds.find? (fun b => a.extern_interrupts.contains b) with
            | some b => .error (.dispatcherHardwareTask b)
            | none => .ok ()

/-! ### Concrete example models -/

/-- One resource (name 1) accessed by three tasks on core 0 at priorities
2, 5 and 7. -/
def appC1 : App :=
  { late_resources := []
    resources := [(1, 10)]
    inits := [(0, ⟨[], []⟩)]
    software_tasks := []
    hardware_task_binds := []
    extern_interrupts := []
    resource_accesses :=
      [⟨0, some 2, 1, .Exclusive⟩, ⟨0, some 5, 1, .Exclusive⟩, ⟨0, some 7, 1, .Exclusive⟩]
    spawn_calls := []
    schedule_calls := [] }

/-- Task 5 (core 1, priority 5, capacity 2, one input type 9) spawned from
core 0 at priority 3: a cross-core spawn. -/
def appC3 : App :=
  { late_resources := []
    resources := []
    inits := [(0, ⟨[], []⟩), (1, ⟨[], []⟩)]
    software_tasks := [(5, ⟨1, 5, 2, [9]⟩)]
    hardware_task_binds := []
    extern_interrupts := []
    resource_accesses := []
    spawn_calls := [⟨0, some 3, 5⟩]
    schedule_calls := [] }

/-- Same task, spawned from its own core 1 at a different priority 3. -/
def appC3b : App :=
  { appC3 with spawn_calls := [⟨1, some 3, 5⟩] }

/-- Three late resources; init 0 claims resource 1 explicitly, init 1 omits
its late list and receives the rest. -/
def appC4 : App :=
  { late_resources := [(1, 0), (2, 0), (3, 0)]
    resources := []
    inits := [(0, ⟨[1], []⟩), (1, ⟨[], []⟩)]
    software_tasks := []
    hardware_task_binds := []
    extern_interrupts := []
    resource_accesses := []
    spawn_calls := []
    schedule_calls := [] }

/-- One late resource and two inits that both omit their late list. -/
def appC5 : App :=
  { late_resources := [(1, 0)]
    resources := []
    inits := [(0, ⟨[], []⟩), (1, ⟨[], []⟩)]
    software_tasks := []
    hardware_task_binds := []
    extern_interrupts := []
    resource_accesses := []
    spawn_calls := []
    schedule_calls := [] }

/-- Late resource 1 initialized by core 0 and accessed by a priority-2 task on
core 1. -/
def appC6 : App :=
  { late_resources := [(1, 7)]
    resources := []
    inits := [(0, ⟨[1], []⟩)]
    software_tasks := []
    hardware_task_binds := []
    extern_interrupts := []
    resource_accesses := [⟨1, some 2, 1, .Exclusive⟩]
    spawn_calls := []
    schedule_calls := [] }

/-- Tasks 1 (capacity 3) and 2 (capacity 4), both on core 0 at dispatch
priority 1, spawned from core 0 at priority 2: one shared channel. -/
def appC7 : App :=
  { late_resources := []
    resources := []
    inits := [(0, ⟨[], []⟩)]
    software_tasks := [(1, ⟨0, 1, 3, []⟩), (2, ⟨0, 1, 4, []⟩)]
    hardware_task_binds := []
    extern_interrupts := []
    resource_accesses := []
    spawn_calls := [⟨0, some 2, 1⟩, ⟨0, some 2, 2⟩]
    schedule_calls := [] }

/-- Late resource 1 (type 7) initialized by core 1 and owned by a priority-2
task on core 1. -/
def appC8 : App :=
  { late_resources := [(1, 7)]
    resources := []
    inits := [(0, ⟨[], []⟩), (1, ⟨[1], []⟩)]
    software_tasks := []
    hardware_task_binds := []
    extern_interrupts := []
    resource_accesses := [⟨1, some 2, 1, .Exclusive⟩]
    spawn_calls := []
    schedule_calls := [] }

/-- Tasks 1 (priority 3) and 2 (priority 5) on core 0, scheduled from core 0:
one call at fixed priority 6, one from init. -/
def appC10 : App :=
  { late_resources := []
    resources := []
    inits := [(0, ⟨[], []⟩)]
    software_tasks := [(1, ⟨0, 3, 1, []⟩), (2, ⟨0, 5, 1, []⟩)]
    hardware_task_binds := []
    extern_interrupts := []
    resource_accesses := []
    spawn_calls := []
    schedule_calls := [⟨0, some 6, 1⟩, ⟨0, none, 2⟩] }

/-- The ownership transition for one fixed priority, on optional entries:
`none` becomes `Owned { priority }`, an existing entry is transitioned. -/
def stepPrio (o : Option Ownership) (p : Nat) : Option Ownership :=
  match o with
  | some ow => some (updateOwnership ow p)
  | none => some (.Owned p)

/-- The ownership entry obtained from a list of fixed access priorities. -/
def ownAfter (l : List Nat) : Option Ownership :=
  l.foldl stepPrio none

/-- The running maximum the analysis computes, seeded at 0. -/
def maxList (l : List Nat) : Nat :=
  l.foldl max 0

/-! ### Fold projection infrastructure -/

/-- Projecting a fold: when a step changes the projected component only at
elements selected by `keep`, and there through `lstep`, the projection of the
fold is the fold of `lstep` over the selected elements. -/
theorem foldl_proj {σ τ α : Type} (step : σ → α → σ) (lstep : τ → α → τ)
    (keep : α → Bool) (proj : σ → τ)
    (h : ∀ s x, proj (step s x) = if keep x then lstep (proj s) x else proj s) :
    ∀ (l : List α) (s : σ), proj (l.foldl step s) = (l.filter keep).foldl lstep (proj s) := by
  intro l
  induction l with
  | nil => intro s; rfl
  | cons x xs ih =>
      intro s
      simp only [List.foldl_cons, List.filter_cons]
      by_cases hx : keep x = true
      · rw [ih, h, if_pos hx, hx]
        simp
      · rw [ih, h, if_neg hx]
        simp only [Bool.not_eq_true] at hx
        rw [hx]
        simp

/-! ### Ownership characterization -/

theorem ownershipStep_proj (name : Nat) (m : Nat → Option Ownership) (t : RAccess) :
    ownershipStep m t name =
      if decide (t.name = name) then
        (match t.prio with
          | none => m name
          | some p => stepPrio (m name) p)
      else m name := by
  unfold ownershipStep stepPrio
  cases t.prio with
  | none => by_cases h : t.name = name <;> simp [h]
  | some p =>
      by_cases h : t.name = name
      · subst h
        cases m t.name <;> simp [Function.update_apply]
      · cases m t.name <;> simp [Function.update_apply, h, Ne.symm h]

theorem foldl_access_filterMap (l : List RAccess) :
    ∀ o : Option Ownership,
      l.foldl (fun o t =>
          match t.prio with
          | none => o
          | some p => stepPrio o p) o =
        (l.filterMap RAccess.prio).foldl stepPrio o := by
  induction l with
  | nil => intro o; rfl
  | cons x xs ih =>
      intro o
      simp only [List.foldl_cons, List.filterMap_cons]
      cases hx : x.prio <;> simp [hx, ih]

/-- The ownership entry of `name` after the access loop is the fold of the
per-priority transition over the fixed priorities of the accesses to `name`. -/
theorem ownerships_eq_ownAfter (a : App) (name : Nat) :
    ownerships a name = ownAfter (accessPrios a name) := by
  unfold ownerships ownAfter accessPrios
  rw [foldl_proj ownershipStep
        (fun o t =>
          match t.prio with
          | none => o
          | some p => stepPrio o p)
        (fun t => decide (t.name = name)) (fun m => m name)
        (fun m t => ownershipStep_proj name m t) a.resource_accesses (fun _ => none)]
  exact foldl_access_filterMap _ none

theorem updateOwnership_contended (c q : Nat) :
    updateOwnership (.Contended c) q = .Contended (max c q) := by
  unfold updateOwnership
  by_cases h : q = c <;> simp [h]

theorem updateOwnership_maxPrio (o : Ownership) (q : Nat) :
    (updateOwnership o q).maxPrio = max o.maxPrio q := by
  cases o with
  | Owned c => by_cases h : q = c <;> simp [updateOwnership, Ownership.maxPrio, h]
  | CoOwned c => by_cases h : q = c <;> simp [updateOwnership, Ownership.maxPrio, h]
  | Contended c => by_cases h : q = c <;> simp [updateOwnership, Ownership.maxPrio, h]

theorem foldl_stepPrio_some (l : List Nat) :
    ∀ o : Ownership, l.foldl stepPrio (some o) = some (l.foldl updateOwnership o) := by
  induction l with
  | nil => intro o; rfl
  | cons q l ih => intro o; simp only [List.foldl_cons, stepPrio]; exact ih _

theorem foldl_updateOwnership_contended (l : List Nat) :
    ∀ c : Nat, l.foldl updateOwnership (.Contended c) = .Contended (l.foldl max c) := by
  induction l with
  | nil => intro c; rfl
  | cons q l ih =>
      intro c
      simp only [List.foldl_cons, updateOwnership_contended]
      exact ih _

theorem updateOwnership_owned_same (p : Nat) :
    updateOwnership (.Owned p) p = .CoOwned p := by
  simp [updateOwnership]

theorem updateOwnership_owned_ne (c q : Nat) (h : q ≠ c) :
    updateOwnership (.Owned c) q = .Contended (max c q) := by
  simp [updateOwnership, h]

theorem updateOwnership_coowned_same (p : Nat) :
    updateOwnership (.CoOwned p) p = .CoOwned p := by
  simp [updateOwnership]

theorem updateOwnership_coowned_ne (c q : Nat) (h : q ≠ c) :
    updateOwnership (.CoOwned c) q = .Contended (max c q) := by
  simp [updateOwnership, h]

theorem foldl_updateOwnership_same (l : List Nat) (p : Nat) (h : ∀ q ∈ l, q = p) :
    l.foldl updateOwnership (.Owned p) =
        (if l.isEmpty then .Owned p else .CoOwned p) ∧
      l.foldl updateOwnership (.CoOwned p) = .CoOwned p := by
  induction l with
  | nil => exact ⟨rfl, rfl⟩
  | cons q l ih =>
      have hq : q = p := h q (by simp)
      subst hq
      have hl : ∀ x ∈ l, x = q := fun x hx => h x (by simp [hx])
      have ih2 := ih hl
      constructor
      · rw [List.foldl_cons, updateOwnership_owned_same]
        simpa using ih2.2
      · rw [List.foldl_cons, updateOwnership_coowned_same]
        exact ih2.2

theorem foldl_updateOwnership_mixed (l : List Nat) :
    ∀ p : Nat, (∃ q ∈ l, q ≠ p) →
      l.foldl updateOwnership (.Owned p) = .Contended (l.foldl max p) ∧
        l.foldl updateOwnership (.CoOwned p) = .Contended (l.foldl max p) := by
  induction l with
  | nil => intro p h; simp at h
  | cons q l ih =>
      intro p h
      by_cases hq : q = p
      · subst hq
        obtain ⟨x, hx, hxp⟩ := h
        have hx2 : x ∈ l := by
          rcases List.mem_cons.mp hx with h1 | h1
          · exact absurd h1 hxp
          · exact h1
        have ih2 := ih q ⟨x, hx2, hxp⟩
        constructor
        · rw [List.foldl_cons, updateOwnership_owned_same]
          simpa using ih2.2
        · rw [List.foldl_cons, updateOwnership_coowned_same]
          simpa using ih2.2
      · constructor
        · rw [List.foldl_cons, updateOwnership_owned_ne p q hq,
            foldl_updateOwnership_contended]
          simp [List.foldl_cons]
        · rw [List.foldl_cons, updateOwnership_coowned_ne p q hq,
            foldl_updateOwnership_contended]
          simp [List.foldl_cons]

theorem le_foldl_max (l : List Nat) : ∀ a : Nat, a ≤ l.foldl max a := by
  induction l with
  | nil => intro a; exact le_refl a
  | cons q l ih => intro a; exact le_trans (le_max_left a q) (ih (max a q))

theorem mem_le_foldl_max (l : List Nat) : ∀ (a x : Nat), x ∈ l → x ≤ l.foldl max a := by
  induction l with
  | nil => intro a x hx; simp at hx
  | cons q l ih =>
      intro a x hx
      rcases List.mem_cons.mp hx with h1 | h1
      · subst h1
        exact le_trans (le_max_right a x) (le_foldl_max l _)
      · exact ih _ x h1

theorem maxList_cons (p : Nat) (l : List Nat) : maxList (p :: l) = l.foldl max p := by
  unfold maxList
  simp [Nat.zero_max]

theorem foldl_updateOwnership_maxPrio (l : List Nat) :
    ∀ o : Ownership, (l.foldl updateOwnership o).maxPrio = l.foldl max o.maxPrio := by
  induction l with
  | nil => intro o; rfl
  | cons q l ih =>
      intro o
      simp only [List.foldl_cons]
      rw [ih, updateOwnership_maxPrio]

theorem ownAfter_cons (p : Nat) (l : List Nat) :
    ownAfter (p :: l) = some (l.foldl updateOwnership (.Owned p)) := by
  unfold ownAfter
  rw [List.foldl_cons]
  exact foldl_stepPrio_some l _

/-- C1.  Classification of the derived ownership of a resource by the list of
fixed priorities at which it is accessed: two or more distinct priorities give
`Contended` at the maximum of the accessing priorities, a single prioritized
access gives `Owned` at its priority, and two or more accesses all at one
priority give `CoOwned` at that priority. -/
theorem ownership_classification (a : App) (name : Nat) :
    ((∃ p ∈ accessPrios a name, ∃ q ∈ accessPrios a name, p ≠ q) →
        ownerships a name = some (.Contended (maxList (accessPrios a name)))) ∧
    (∀ p, accessPrios a name = [p] → ownerships a name = some (.Owned p)) ∧
    (∀ p, (∀ q ∈ accessPrios a name, q = p) → 2 ≤ (accessPrios a name).length →
        ownerships a name = some (.CoOwned p)) := by
  rw [ownerships_eq_ownAfter]
  rcases hL : accessPrios a name with - | ⟨p0, l⟩
  · refine ⟨?_, ?_, ?_⟩
    · rintro ⟨p, hp, -⟩
      simp at hp
    · intro p hp
      simp at hp
    · intro p hall hlen
      simp at hlen
  · rw [ownAfter_cons]
    refine ⟨?_, ?_, ?_⟩
    · rintro ⟨p, hp, q, hq, hpq⟩
      have hmix : ∃ x ∈ l, x ≠ p0 := by
        by_contra hcon
        push_neg at hcon
        have hp0 : ∀ x ∈ p0 :: l, x = p0 := by
          intro x hx
          rcases List.mem_cons.mp hx with h1 | h1
          · exact h1
          · exact hcon x h1
        exact hpq ((hp0 p hp).trans (hp0 q hq).symm)
      rw [(foldl_updateOwnership_mixed l p0 hmix).1, maxList_cons]
    · intro p hp
      have h1 : p0 = p ∧ l = [] := by
        constructor
        · exact (List.cons.injEq p0 l p []).mp hp |>.1
        · exact (List.cons.injEq p0 l p []).mp hp |>.2
      rw [h1.1, h1.2]
      rfl
    · intro p hall hlen
      have hp0 : p0 = p := hall p0 (by simp)
      subst hp0
      have hl : ∀ q ∈ l, q = p0 := fun q hq => hall q (by simp [hq])
      have hne : l ≠ [] := by
        intro hcon
        rw [hcon] at hlen
        simp at hlen
      rw [(foldl_updateOwnership_same l p0 hl).1, if_neg (by simpa using hne)]

/-- C2.  `needs_lock` is false for `Owned` and `CoOwned`; for
`Contended { ceiling }` it is true exactly when the access priority is below
the ceiling, so an access exactly at the ceiling needs no lock. -/
theorem needs_lock_spec (p q c : Nat) :
    (Ownership.Owned q).needs_lock p = false ∧
    (Ownership.CoOwned q).needs_lock p = false ∧
    ((Ownership.Contended c).needs_lock p = true ↔ p < c) ∧
    (Ownership.Contended c).needs_lock c = false := by
  refine ⟨rfl, rfl, ?_, by simp [Ownership.needs_lock]⟩
  simp [Ownership.needs_lock]

/-- C9.  Every fixed-priority access of the model to a resource is bounded by
the priority/ceiling recorded in the analyzer's ownership entry for that
resource, so the `debug_assert!(ceiling >= priority)` inside `needs_lock` holds
whenever `needs_lock` is consulted for an access of the analyzed model. -/
theorem ownership_ceiling_invariant (a : App) (t : RAccess)
    (ht : t ∈ a.resource_accesses) (p : Nat) (hp : t.prio = some p) :
    (ownerships a t.name).isSome = true ∧
      p ≤ ((ownerships a t.name).map Ownership.maxPrio).getD 0 := by
  have hmem : p ∈ accessPrios a t.name := by
    unfold accessPrios
    exact List.mem_filterMap.mpr ⟨t, List.mem_filter.mpr ⟨ht, by simp⟩, hp⟩
  rw [ownerships_eq_ownAfter]
  rcases hL : accessPrios a t.name with - | ⟨p0, l⟩
  · rw [hL] at hmem
    simp at hmem
  · rw [hL] at hmem
    rw [ownAfter_cons]
    refine ⟨rfl, ?_⟩
    show p ≤ (l.foldl updateOwnership (Ownership.Owned p0)).maxPrio
    rw [foldl_updateOwnership_maxPrio]
    rcases List.mem_cons.mp hmem with h1 | h1
    · subst h1
      exact le_foldl_max l _
    · exact mem_le_foldl_max l _ p h1

/-- Witness for C1 at a concrete model: resource 1 of `appC1` is accessed at
priorities 2, 5 and 7, and its ownership entry is `Contended { ceiling: 7 }`. -/
theorem ownership_classification_witness :
    ownerships appC1 1 = some (.Contended 7) := by
  have h := (ownership_classification appC1 1).1 ⟨2, by decide, 7, by decide, by decide⟩
  exact h.trans (by decide)

/-- Witness for C9 at a concrete model: the priority-5 access of `appC1` to
resource 1 is bounded by the recorded ceiling. -/
theorem ownership_ceiling_invariant_witness :
    (ownerships appC1 1).isSome = true ∧
      5 ≤ ((ownerships appC1 1).map Ownership.maxPrio).getD 0 :=
  ownership_ceiling_invariant appC1 ⟨0, some 5, 1, .Exclusive⟩ (by decide) 5 rfl

/-! ### The validation gap for double implicit late lists (C5) -/

/-- C5.  `appC5` declares a late resource and has two inits that both omit
their explicit late list, yet the validation pass accepts it: `check.rs` only
verifies that *some* init exists when late resources are declared.  The model
then reaches the `debug_assert!(rest.is_none())` of `analyze.rs`, whose
comment claims "this was checked in the `check` pass". -/
theorem check_accepts_two_implicit_inits :
    check appC5 = .ok () ∧
      appC5.late_resources ≠ [] ∧
      appC5.inits.length = 2 ∧
      ∀ ci ∈ appC5.inits, ci.2.late = [] :=
  ⟨rfl, by decide, by decide, by decide⟩

/-! ### Channel and timer-queue capacities (C7) -/

theorem capacity_sum_sub (s : Finset Nat) (f : Nat → Nat) (t : Nat) (ht : t ∈ s)
    (h : (∑ n ∈ s, f n) ≤ 255) :
    (∑ n ∈ s.erase t, f n) % 256 = (∑ n ∈ s, f n) % 256 - f t := by
  have he := Finset.sum_erase_add s f ht
  rw [Nat.mod_eq_of_lt (by omega), Nat.mod_eq_of_lt (by omega)]
  omega

/-- C7.  Every channel's and every timer queue's capacity is the (`u8`) sum of
the declared capacities of the tasks routed through it, and — when the sum does
not overflow — removing a routed task reduces the capacity by exactly that
task's declared capacity. -/
theorem capacity_is_task_sum (a : App) :
    (∀ r p s ch, channels a r p s = some ch →
        ch.capacity = (∑ n ∈ ch.tasks, a.taskCapacity n) % 256 ∧
        ∀ t ∈ ch.tasks, (∑ n ∈ ch.tasks, a.taskCapacity n) ≤ 255 →
          (∑ n ∈ ch.tasks.erase t, a.taskCapacity n) % 256 =
            ch.capacity - a.taskCapacity t) ∧
    (∀ c tq, timerQueues a c = some tq →
        tq.capacity = (∑ n ∈ tq.tasks, a.taskCapacity n) % 256 ∧
        ∀ t ∈ tq.tasks, (∑ n ∈ tq.tasks, a.taskCapacity n) ≤ 255 →
          (∑ n ∈ tq.tasks.erase t, a.taskCapacity n) % 256 =
            tq.capacity - a.taskCapacity t) := by
  constructor
  · intro r p s ch hch
    unfold channels at hch
    cases hc0 : (schedOut a).1 r p s with
    | none => rw [hc0] at hch; simp at hch
    | some ch0 =>
        rw [hc0] at hch
        simp only [Option.map] at hch
        have hch2 : { ch0 with capacity := (∑ n ∈ ch0.tasks, a.taskCapacity n) % 256 } = ch :=
          Option.some.inj hch
        subst hch2
        refine ⟨rfl, ?_⟩
        intro t ht hsum
        exact capacity_sum_sub ch0.tasks (a.taskCapacity) t ht hsum
  · intro c tq htq
    unfold timerQueues at htq
    cases hc0 : (schedOut a).2.1 c with
    | none => rw [hc0] at htq; simp at htq
    | some tq0 =>
        rw [hc0] at htq
        simp only [Option.map] at htq
        have htq2 : { tq0 with capacity := (∑ n ∈ tq0.tasks, a.taskCapacity n) % 256 } = tq :=
          Option.some.inj htq
        subst htq2
        refine ⟨rfl, ?_⟩
        intro t ht hsum
        exact capacity_sum_sub tq0.tasks (a.taskCapacity) t ht hsum

/-- Witness for C7 at a concrete model: the channel of `appC7` routes tasks 1
(capacity 3) and 2 (capacity 4), its capacity is 7, and erasing task 1 leaves
capacity 4 = 7 - 3. -/
theorem capacity_is_task_sum_witness :
    (7 : Nat) = (∑ n ∈ (insert 2 {1} : Finset Nat), appC7.taskCapacity n) % 256 ∧
      (∑ n ∈ (insert 2 {1} : Finset Nat).erase 1, appC7.taskCapacity n) % 256 =
        7 - appC7.taskCapacity 1 := by
  have h := (capacity_is_task_sum appC7).1 0 1 0 ⟨7, some 2, insert 2 {1}⟩ rfl
  exact ⟨h.1, h.2 1 (by decide) (by decide)⟩

/-! ### Send-set monotonicity -/

theorem mem_insertTys_of_mem (tys : List Nat) :
    ∀ (s : Finset Nat) (x : Nat), x ∈ s → x ∈ insertTys s tys := by
  induction tys with
  | nil => intro s x hx; exact hx
  | cons t ts ih => intro s x hx; exact ih _ x (Finset.mem_insert_of_mem hx)

theorem mem_insertTys_self (tys : List Nat) :
    ∀ (s : Finset Nat) (x : Nat), x ∈ tys → x ∈ insertTys s tys := by
  induction tys with
  | nil => intro s x hx; simp at hx
  | cons t ts ih =>
      intro s x hx
      rcases List.mem_cons.mp hx with h1 | h1
      · subst h1
        exact mem_insertTys_of_mem ts _ x (Finset.mem_insert_self x s)
      · exact ih _ x h1

theorem addSend_mono (snd : Nat → Finset Nat) (c1 c2 : Nat) (tys : List Nat)
    (co x : Nat) (hx : x ∈ snd co) : x ∈ addSend snd c1 c2 tys co := by
  unfold addSend
  have hs1 : x ∈ (Function.update snd c1 (insertTys (snd c1) tys)) co := by
    rcases eq_or_ne co c1 with h | h
    · subst h
      rw [Function.update_same]
      exact mem_insertTys_of_mem _ _ _ hx
    · rw [Function.update_noteq h]
      exact hx
  rcases eq_or_ne co c2 with h | h
  · subst h
    rw [Function.update_same]
    exact mem_insertTys_of_mem _ _ _ hs1
  · rw [Function.update_noteq h]
    exact hs1

theorem addSend_mem_left (snd : Nat → Finset Nat) (c1 c2 : Nat) (tys : List Nat)
    (x : Nat) (hx : x ∈ tys) : x ∈ addSend snd c1 c2 tys c1 := by
  unfold addSend
  rcases eq_or_ne c1 c2 with h | h
  · subst h
    rw [Function.update_same]
    exact mem_insertTys_self _ _ _ hx
  · rw [Function.update_noteq h, Function.update_same]
    exact mem_insertTys_self _ _ _ hx

theorem addSend_mem_right (snd : Nat → Finset Nat) (c1 c2 : Nat) (tys : List Nat)
    (x : Nat) (hx : x ∈ tys) : x ∈ addSend snd c1 c2 tys c2 := by
  unfold addSend
  rw [Function.update_same]
  exact mem_insertTys_self _ _ _ hx

theorem spawnStep_send_mono (a : App) (st : Channels × (Nat → Finset Nat)) (c : Call)
    (co x : Nat) (hx : x ∈ st.2 co) : x ∈ (spawnStep a st c).2 co := by
  unfold spawnStep
  cases ht : a.task c.name with
  | none => exact hx
  | some t =>
      cases hp : c.prio with
      | some prio =>
          dsimp only
          split_ifs with h
          · exact addSend_mono _ _ _ _ _ _ hx
          · exact hx
      | none =>
          dsimp only
          split_ifs with h
          · exact addSend_mono _ _ _ _ _ _ hx
          · exact hx

theorem spawn_foldl_send_mono (a : App) :
    ∀ (l : List Call) (st : Channels × (Nat → Finset Nat)) (co x : Nat),
      x ∈ st.2 co → x ∈ ((l.foldl (spawnStep a) st).2) co := by
  intro l
  induction l with
  | nil => intro st co x hx; exact hx
  | cons y ys ih =>
      intro st co x hx
      exact ih _ co x (spawnStep_send_mono a st y co x hx)

theorem schedStep_send_mono (a : App)
    (st : Channels × (Nat → Option TimerQueue) × (Nat → Finset Nat)) (c : Call)
    (co x : Nat) (hx : x ∈ st.2.2 co) : x ∈ (schedStep a st c).2.2 co := by
  unfold schedStep
  cases ht : a.task c.name with
  | none => exact hx
  | some t =>
      cases htq : st.2.1 c.core with
      | none => exact hx
      | some tq =>
          cases hp : c.prio with
          | some prio =>
              dsimp only
              split_ifs with h
              · exact addSend_mono _ _ _ _ _ _ hx
              · exact hx
          | none =>
              dsimp only
              split_ifs with h
              · exact addSend_mono _ _ _ _ _ _ hx
              · exact hx

theorem sched_foldl_send_mono (a : App) :
    ∀ (l : List Call) (st : Channels × (Nat → Option TimerQueue) × (Nat → Finset Nat))
      (co x : Nat), x ∈ st.2.2 co → x ∈ ((l.foldl (schedStep a) st).2.2) co := by
  intro l
  induction l with
  | nil => intro st co x hx; exact hx
  | cons y ys ih =>
      intro st co x hx
      exact ih _ co x (schedStep_send_mono a st y co x hx)

theorem schedStep_tq_isSome (a : App)
    (st : Channels × (Nat → Option TimerQueue) × (Nat → Finset Nat)) (c : Call)
    (co : Nat) (h : (st.2.1 co).isSome = true) :
    ((schedStep a st c).2.1 co).isSome = true := by
  unfold schedStep
  cases ht : a.task c.name with
  | none => exact h
  | some t =>
      cases htq : st.2.1 c.core with
      | none => exact h
      | some tq =>
          cases hp : c.prio with
          | some prio =>
              dsimp only
              rcases eq_or_ne co c.core with hc | hc
              · subst hc
                rw [Function.update_same]
                rfl
              · rw [Function.update_noteq hc]
                exact h
          | none => exact h

theorem tqInitStep_isSome (a : App) (m : Nat → Option TimerQueue) (c : Call)
    (co : Nat) (h : (m co).isSome = true) : (tqInitStep a m c co).isSome = true := by
  unfold tqInitStep
  cases ht : a.task c.name with
  | none => exact h
  | some t =>
      dsimp only
      rcases eq_or_ne co c.core with hc | hc
      · subst hc
        rw [Function.update_same]
        rfl
      · rw [Function.update_noteq hc]
        exact h

theorem tqInit_foldl_isSome_mono (a : App) :
    ∀ (l : List Call) (m : Nat → Option TimerQueue) (co : Nat),
      (m co).isSome = true → ((l.foldl (tqInitStep a) m) co).isSome = true := by
  intro l
  induction l with
  | nil => intro m co h; exact h
  | cons y ys ih => intro m co h; exact ih _ co (tqInitStep_isSome a m y co h)

theorem tqInit_foldl_isSome (a : App) :
    ∀ (l : List Call) (m : Nat → Option TimerQueue) (c : Call), c ∈ l →
      ∀ t, a.task c.name = some t → ((l.foldl (tqInitStep a) m) c.core).isSome = true := by
  intro l
  induction l with
  | nil => intro m c hc; simp at hc
  | cons y ys ih =>
      intro m c hc t ht
      rcases List.mem_cons.mp hc with h1 | h1
      · subst h1
        have hstep : (tqInitStep a m c c.core).isSome = true := by
          unfold tqInitStep
          rw [ht]
          dsimp only
          rw [Function.update_same]
          rfl
        exact tqInit_foldl_isSome_mono a ys _ c.core hstep
      · exact ih (tqInitStep a m y) c h1 t ht

theorem spawnStep_send_mem (a : App) (st : Channels × (Nat → Finset Nat)) (c : Call)
    (t : SoftwareTask) (ht : a.task c.name = some t)
    (hcond : (c.prio = none ∧ c.core = t.core) ∨
      (∃ p, c.prio = some p ∧ c.core = t.core ∧ t.priority ≠ p))
    (ty : Nat) (hty : ty ∈ t.inputs) : ty ∈ (spawnStep a st c).2 c.core := by
  unfold spawnStep
  rw [ht]
  rcases hcond with ⟨hp, hcore⟩ | ⟨p, hp, hcore, hne⟩
  · rw [hp]
    dsimp only
    rw [if_pos hcore]
    exact addSend_mem_left _ _ _ _ _ hty
  · rw [hp]
    dsimp only
    rw [if_pos ⟨hcore, hne⟩]
    exact addSend_mem_left _ _ _ _ _ hty

theorem spawn_foldl_send_mem (a : App) :
    ∀ (l : List Call) (st : Channels × (Nat → Finset Nat)) (c : Call), c ∈ l →
      ∀ t, a.task c.name = some t →
      ((c.prio = none ∧ c.core = t.core) ∨
        (∃ p, c.prio = some p ∧ c.core = t.core ∧ t.priority ≠ p)) →
      ∀ ty ∈ t.inputs, ty ∈ ((l.foldl (spawnStep a) st).2) c.core := by
  intro l
  induction l with
  | nil => intro st c hc; simp at hc
  | cons y ys ih =>
      intro st c hc t ht hcond ty hty
      rcases List.mem_cons.mp hc with h1 | h1
      · subst h1
        exact spawn_foldl_send_mono a ys _ c.core ty
          (spawnStep_send_mem a st c t ht hcond ty hty)
      · exact ih _ c h1 t ht hcond ty hty

theorem schedStep_send_mem (a : App)
    (st : Channels × (Nat → Option TimerQueue) × (Nat → Finset Nat)) (c : Call)
    (t : SoftwareTask) (tq : TimerQueue) (ht : a.task c.name = some t)
    (htq : st.2.1 c.core = some tq)
    (hcond : (c.prio = none ∧ c.core = t.core) ∨
      (∃ p, c.prio = some p ∧ c.core = t.core ∧ t.priority ≠ p))
    (ty : Nat) (hty : ty ∈ t.inputs) : ty ∈ (schedStep a st c).2.2 c.core := by
  unfold schedStep
  rw [ht]
  dsimp only
  rw [htq]
  rcases hcond with ⟨hp, hcore⟩ | ⟨p, hp, hcore, hne⟩
  · rw [hp]
    dsimp only
    rw [if_pos hcore]
    exact addSend_mem_left _ _ _ _ _ hty
  · rw [hp]
    dsimp only
    rw [if_pos ⟨hcore, hne⟩]
    exact addSend_mem_left _ _ _ _ _ hty

theorem sched_foldl_send_mem (a : App) :
    ∀ (l : List Call) (st : Channels × (Nat → Option TimerQueue) × (Nat → Finset Nat))
      (c : Call), c ∈ l → ∀ t, a.task c.name = some t →
      (st.2.1 c.core).isSome = true →
      ((c.prio = none ∧ c.core = t.core) ∨
        (∃ p, c.prio = some p ∧ c.core = t.core ∧ t.priority ≠ p)) →
      ∀ ty ∈ t.inputs, ty ∈ ((l.foldl (schedStep a) st).2.2) c.core := by
  intro l
  induction l with
  | nil => intro st c hc; simp at hc
  | cons y ys ih =>
      intro st c hc t ht hsome hcond ty hty
      rcases List.mem_cons.mp hc with h1 | h1
      · subst h1
        obtain ⟨tq, htq⟩ := Option.isSome_iff_exists.mp hsome
        exact sched_foldl_send_mono a ys _ c.core ty
          (schedStep_send_mem a st c t tq ht htq hcond ty hty)
      · exact ih _ c h1 t ht (schedStep_tq_isSome a st y c.core hsome) hcond ty hty

/-- C3 (amended).  The spawn and schedule loops add a dispatched task's input
payload types to the Send sets only for core-local calls: a call site on the
task's own core whose priority differs from the task's, or an init call site
(no priority) targeting its own core.  Cross-core calls contribute nothing
here. -/
theorem same_core_send_types (a : App) :
    (∀ c ∈ a.spawn_calls, ∀ t, a.task c.name = some t → c.core = t.core →
        (c.prio = none ∨ ∃ p, c.prio = some p ∧ t.priority ≠ p) →
        ∀ ty ∈ t.inputs, ty ∈ sendTypes a c.core ∧ ty ∈ sendTypes a t.core) ∧
    (∀ c ∈ a.schedule_calls, ∀ t, a.task c.name = some t → c.core = t.core →
        (c.prio = none ∨ ∃ p, c.prio = some p ∧ t.priority ≠ p) →
        ∀ ty ∈ t.inputs, ty ∈ sendTypes a c.core ∧ ty ∈ sendTypes a t.core) := by
  constructor
  · intro c hc t ht hcore hcond ty hty
    have hcond2 : (c.prio = none ∧ c.core = t.core) ∨
        (∃ p, c.prio = some p ∧ c.core = t.core ∧ t.priority ≠ p) := by
      rcases hcond with h | ⟨p, hp, hne⟩
      · exact Or.inl ⟨h, hcore⟩
      · exact Or.inr ⟨p, hp, hcore, hne⟩
    have hmem : ty ∈ (spawnOut a).2 c.core :=
      spawn_foldl_send_mem a a.spawn_calls _ c hc t ht hcond2 ty hty
    have hfinal : ty ∈ sendTypes a c.core := by
      unfold sendTypes schedOut
      exact sched_foldl_send_mono a a.schedule_calls _ c.core ty hmem
    exact ⟨hfinal, hcore ▸ hfinal⟩
  · intro c hc t ht hcore hcond ty hty
    have hcond2 : (c.prio = none ∧ c.core = t.core) ∨
        (∃ p, c.prio = some p ∧ c.core = t.core ∧ t.priority ≠ p) := by
      rcases hcond with h | ⟨p, hp, hne⟩
      · exact Or.inl ⟨h, hcore⟩
      · exact Or.inr ⟨p, hp, hcore, hne⟩
    have hsome : ((timerQueues1 a) c.core).isSome = true := by
      unfold timerQueues1
      exact tqInit_foldl_isSome a a.schedule_calls _ c hc t ht
    have hfinal : ty ∈ sendTypes a c.core := by
      unfold sendTypes schedOut
      exact sched_foldl_send_mem a a.schedule_calls
        ((spawnOut a).1, timerQueues1 a, (spawnOut a).2) c hc t ht hsome hcond2 ty hty
    exact ⟨hfinal, hcore ▸ hfinal⟩

/-- C3 counterexample.  `appC3` spawns task 5 (core 1, priority 5, input
type 9) from core 0 at priority 3 — a cross-core spawn — yet type 9 lands in
neither core's Send set, contradicting the claim that different-core spawns
require transfer-safety on both cores. -/
theorem spawn_cross_core_no_send :
    appC3.spawn_calls = [⟨0, some 3, 5⟩] ∧
      appC3.task 5 = some ⟨1, 5, 2, [9]⟩ ∧
      9 ∉ sendTypes appC3 0 ∧ 9 ∉ sendTypes appC3 1 :=
  ⟨rfl, rfl, by decide, by decide⟩

/-- Witness for C3 (amended) at a concrete model: the same spawn kept on the
task's own core at a different priority does add input type 9 to core 1's
Send set. -/
theorem same_core_send_types_witness : 9 ∈ sendTypes appC3b 1 :=
  ((same_core_send_types appC3b).1 ⟨1, some 3, 5⟩ (by decide) ⟨1, 5, 2, [9]⟩ rfl rfl
    (Or.inr ⟨3, rfl, by decide⟩) 9 (by decide)).1

/-! ### The Send rule for late resources (C8) -/

theorem sendLateStep_mono (own : Nat → Option Ownership) (s : Nat → Finset Nat)
    (r : Nat × Nat) (co x : Nat) (hx : x ∈ s co) : x ∈ sendLateStep own s r co := by
  unfold sendLateStep
  cases own r.1 with
  | none => exact hx
  | some o =>
      dsimp only
      split_ifs with h
      · rcases eq_or_ne co 0 with hc | hc
        · subst hc
          rw [Function.update_same]
          exact Finset.mem_insert_of_mem hx
        · rw [Function.update_noteq hc]
          exact hx
      · exact hx

theorem sendLate_foldl_mono (own : Nat → Option Ownership) :
    ∀ (l : List (Nat × Nat)) (s : Nat → Finset Nat) (co x : Nat),
      x ∈ s co → x ∈ ((l.foldl (sendLateStep own) s) co) := by
  intro l
  induction l with
  | nil => intro s co x hx; exact hx
  | cons y ys ih => intro s co x hx; exact ih _ co x (sendLateStep_mono own s y co x hx)

theorem sendLate_foldl_mem (own : Nat → Option Ownership) :
    ∀ (l : List (Nat × Nat)) (s : Nat → Finset Nat) (nt : Nat × Nat), nt ∈ l →
      ∀ o, own nt.1 = some o → o ≠ .Owned 0 → nt.2 ∈ ((l.foldl (sendLateStep own) s) 0) := by
  intro l
  induction l with
  | nil => intro s nt hnt; simp at hnt
  | cons y ys ih =>
      intro s nt hnt o hown hne
      rcases List.mem_cons.mp hnt with h1 | h1
      · subst h1
        apply sendLate_foldl_mono own ys _ 0 nt.2
        unfold sendLateStep
        rw [hown]
        dsimp only
        rw [if_pos hne, Function.update_same]
        exact Finset.mem_insert_self _ _
      · exact ih _ nt h1 o hown hne

theorem sendInitStep_mono (a : App) (s : Nat → Finset Nat) (name co x : Nat)
    (hx : x ∈ s co) : x ∈ sendInitStep a s name co := by
  unfold sendInitStep
  cases ownerships a name with
  | none => exact hx
  | some o =>
      dsimp only
      split_ifs with h
      · rcases eq_or_ne co 0 with hc | hc
        · subst hc
          rw [Function.update_same]
          exact Finset.mem_insert_of_mem hx
        · rw [Function.update_noteq hc]
          exact hx
      · exact hx

theorem sendInit_foldl_mono (a : App) :
    ∀ (l : List Nat) (s : Nat → Finset Nat) (co x : Nat),
      x ∈ s co → x ∈ ((l.foldl (sendInitStep a) s) co) := by
  intro l
  induction l with
  | nil => intro s co x hx; exact hx
  | cons y ys ih => intro s co x hx; exact ih _ co x (sendInitStep_mono a s y co x hx)

/-- C8 (amended).  A declared late resource whose derived ownership exists and
differs from `Owned { priority: 0 }` has its type added to the Send set of
core 0 — the loop writes `send_types.entry(0)` unconditionally, not the
initializing core's entry. -/
theorem late_resource_send_core_zero (a : App) (nt : Nat × Nat)
    (h : nt ∈ a.late_resources) (o : Ownership) (hown : ownerships a nt.1 = some o)
    (hne : o ≠ .Owned 0) : nt.2 ∈ sendTypes a 0 := by
  have h0 : nt.2 ∈ sendTypes0 a 0 := by
    unfold sendTypes0
    apply sendInit_foldl_mono
    exact sendLate_foldl_mem (ownerships a) a.late_resources _ nt h o hown hne
  have h1 : nt.2 ∈ (spawnOut a).2 0 := by
    unfold spawnOut
    exact spawn_foldl_send_mono a a.spawn_calls _ 0 nt.2 h0
  unfold sendTypes schedOut
  exact sched_foldl_send_mono a a.schedule_calls _ 0 nt.2 h1

/-- C8 counterexample.  In `appC8` late resource 1 (type 7) is initialized by
core 1 and owned there at priority 2, yet its type is added to core 0's Send
set and not to core 1's, contradicting the claim that the initializing core's
set receives it. -/
theorem late_send_not_initializer_core :
    (lateResourcesMap appC8).f 1 = {1} ∧
      ownerships appC8 1 = some (.Owned 2) ∧
      7 ∉ sendTypes appC8 1 ∧ 7 ∈ sendTypes appC8 0 :=
  ⟨by decide, by decide, by decide, by decide⟩

/-- Witness for C8 (amended) at a concrete model: the type of `appC8`'s late
resource lands in core 0's Send set. -/
theorem late_resource_send_core_zero_witness : (7 : Nat) ∈ sendTypes appC8 0 :=
  late_resource_send_core_zero appC8 (1, 7) (by decide) (.Owned 2) (by decide) (by decide)

/-! ### Initialization barriers (C6) -/

theorem barrierStep_mem (lr : LateMap) (b : Nat → Finset Nat) (x : RAccess) (r s : Nat) :
    s ∈ barrierStep lr b x r ↔
      s ∈ b r ∨ (x.core = r ∧ s ∈ lr.dom ∧ s ≠ r ∧ x.name ∈ lr.f s) := by
  unfold barrierStep
  rcases eq_or_ne r x.core with h | h
  · subst h
    rw [Function.update_same, Finset.mem_union, Finset.mem_filter]
    tauto
  · rw [Function.update_noteq h]
    have : ¬(x.core = r) := fun hc => h hc.symm
    tauto

theorem barrier_foldl_mem (lr : LateMap) :
    ∀ (l : List RAccess) (b : Nat → Finset Nat) (r s : Nat),
      s ∈ (l.foldl (barrierStep lr) b) r ↔
        s ∈ b r ∨ ∃ t ∈ l, t.core = r ∧ s ∈ lr.dom ∧ s ≠ r ∧ t.name ∈ lr.f s := by
  intro l
  induction l with
  | nil =>
      intro b r s
      simp
  | cons x xs ih =>
      intro b r s
      rw [List.foldl_cons, ih, barrierStep_mem]
      constructor
      · rintro ((h | hx) | ⟨t, htl, ht⟩)
        · exact Or.inl h
        · exact Or.inr ⟨x, by simp, hx⟩
        · exact Or.inr ⟨t, by simp [htl], ht⟩
      · rintro (h | ⟨t, htl, ht⟩)
        · exact Or.inl (Or.inl h)
        · rcases List.mem_cons.mp htl with h1 | h1
          · subst h1
            exact Or.inl (Or.inr ht)
          · exact Or.inr ⟨t, h1, ht⟩

theorem lateStep_dom_complete (st : LRState) (ci : Nat × InitArgs)
    (h : ∀ s ∉ st.dom, st.f s = ∅) :
    ∀ s ∉ (lateStep st ci).dom, (lateStep st ci).f s = ∅ := by
  unfold lateStep
  split_ifs with hcase
  · exact h
  · intro s hs
    dsimp only at hs ⊢
    rw [Finset.mem_insert] at hs
    push_neg at hs
    rw [Function.update_noteq hs.1]
    exact h s hs.2

theorem late_foldl_dom_complete :
    ∀ (l : List (Nat × InitArgs)) (st : LRState), (∀ s ∉ st.dom, st.f s = ∅) →
      ∀ s ∉ (l.foldl lateStep st).dom, (l.foldl lateStep st).f s = ∅ := by
  intro l
  induction l with
  | nil => intro st h; exact h
  | cons y ys ih => intro st h; exact ih _ (lateStep_dom_complete st y h)

/-- A core that holds no entry in the late-resource map initializes nothing. -/
theorem lateMap_dom_complete (a : App) :
    ∀ s, s ∉ (lateResourcesMap a).dom → (lateResourcesMap a).f s = ∅ := by
  unfold lateResourcesMap
  split_ifs with hcase
  · intro s _
    rfl
  · have hbase : ∀ s, s ∉ (∅ : Finset Nat) → (fun _ : Nat => (∅ : Finset Nat)) s = ∅ :=
      fun s _ => rfl
    have hfold := late_foldl_dom_complete a.inits ⟨fun _ => ∅, ∅, a.declaredLate, none⟩
      (fun s hs => hbase s hs)
    cases hrest : (a.inits.foldl lateStep ⟨fun _ => ∅, ∅, a.declaredLate, none⟩).rest with
    | none =>
        intro s hs
        dsimp only at hs ⊢
        rw [hrest] at hs ⊢
        exact hfold s hs
    | some c =>
        intro s hs
        dsimp only at hs ⊢
        rw [hrest] at hs ⊢
        dsimp only at hs ⊢
        rw [Finset.mem_insert] at hs
        push_neg at hs
        rw [Function.update_noteq hs.1]
        exact hfold s hs.2

/-- C6.  For models whose priority-less (init) accesses never touch an
assigned late resource — the repository's validation rejects init access to
late resources (`ui/single/init-resources-late.rs`), though that check lives
outside the analysis sources — the barrier map records `(receiver,
initializer)` exactly for the fixed-priority accesses whose resource is late
and assigned to a core different from the accessing core; a same-core access
never records a barrier. -/
theorem initialization_barriers_iff (a : App)
    (hinit : ∀ t ∈ a.resource_accesses, t.prio = none →
      ∀ s, t.name ∉ (lateResourcesMap a).f s)
    (r s : Nat) :
    s ∈ initializationBarriers a r ↔
      s ≠ r ∧ ∃ t ∈ a.resource_accesses, t.core = r ∧ (∃ p, t.prio = some p) ∧
        t.name ∈ (lateResourcesMap a).f s := by
  unfold initializationBarriers
  rw [barrier_foldl_mem]
  constructor
  · rintro (h | ⟨t, htl, hcore, hdom, hne, hmem⟩)
    · exact absurd h (Finset.not_mem_empty s)
    · refine ⟨hne, t, htl, hcore, ?_, hmem⟩
      cases hp : t.prio with
      | none => exact absurd hmem (hinit t htl hp s)
      | some p => exact ⟨p, rfl⟩
  · rintro ⟨hne, t, htl, hcore, ⟨p, hp⟩, hmem⟩
    right
    refine ⟨t, htl, hcore, ?_, hne, hmem⟩
    by_contra hdom
    rw [lateMap_dom_complete a s hdom] at hmem
    exact absurd hmem (Finset.not_mem_empty _)

/-- Witness for C6 at a concrete model: in `appC6`, resource 1 is
late-initialized by core 0 and accessed at priority 2 on core 1, and the
barrier `(receiver 1, initializer 0)` is recorded. -/
theorem initialization_barriers_iff_witness :
    0 ∈ initializationBarriers appC6 1 := by
  have hinit : ∀ t ∈ appC6.resource_accesses, t.prio = none →
      ∀ s, t.name ∉ (lateResourcesMap appC6).f s := by
    intro t htl hp s
    simp [appC6] at htl
    subst htl
    simp at hp
  exact (initialization_barriers_iff appC6 hinit 1 0).mpr
    ⟨by decide, ⟨1, some 2, 1, .Exclusive⟩, by decide, rfl, ⟨2, rfl⟩, by decide⟩

/-! ### Timer-queue priority and ceiling (C10) -/

theorem taskPriority_eq (a : App) (n : Nat) (t : SoftwareTask) (ht : a.task n = some t) :
    a.taskPriority n = t.priority := by
  unfold App.taskPriority
  rw [ht]
  rfl

theorem tqInitStep_proj (a : App) (co : Nat) (m : Nat → Option TimerQueue) (c : Call) :
    tqInitStep a m c co = if decide (c.core = co) then tqLocalStep a (m co) c else m co := by
  unfold tqInitStep tqLocalStep
  cases ht : a.task c.name with
  | none => by_cases h : c.core = co <;> simp [h]
  | some t =>
      by_cases h : c.core = co
      · subst h
        simp [Function.update_same]
      · rw [if_neg (by simpa using h)]
        dsimp only
        rw [Function.update_noteq (Ne.symm h)]

theorem schedStep_tq_proj (a : App) (co : Nat)
    (st : Channels × (Nat → Option TimerQueue) × (Nat → Finset Nat)) (c : Call) :
    (schedStep a st c).2.1 co =
      if decide (c.core = co) then tq2Local a (st.2.1 co) c else st.2.1 co := by
  unfold schedStep tq2Local
  cases ht : a.task c.name with
  | none => by_cases h : c.core = co <;> simp [h]
  | some t =>
      cases htq : st.2.1 c.core with
      | none =>
          by_cases h : c.core = co
          · subst h
            rw [if_pos (by simp)]
            dsimp only
            rw [htq]
          · rw [if_neg (by simpa using h)]
      | some tq =>
          cases hp : c.prio with
          | some prio =>
              by_cases h : c.core = co
              · subst h
                rw [if_pos (by simp)]
                dsimp only
                rw [Function.update_same, htq]
              · rw [if_neg (by simpa using h)]
                dsimp only
                rw [Function.update_noteq (Ne.symm h)]
          | none =>
              by_cases h : c.core = co
              · subst h
                rw [if_pos (by simp)]
                dsimp only
                rw [htq]
              · rw [if_neg (by simpa using h)]

theorem timerQueues1_proj (a : App) (co : Nat) :
    timerQueues1 a co =
      (a.schedule_calls.filter (fun c => decide (c.core = co))).foldl (tqLocalStep a) none := by
  unfold timerQueues1
  exact foldl_proj (tqInitStep a) (tqLocalStep a) (fun c => decide (c.core = co))
    (fun m => m co) (fun m c => tqInitStep_proj a co m c) a.schedule_calls (fun _ => none)

theorem schedOut_tq_proj (a : App) (co : Nat) :
    (schedOut a).2.1 co =
      (a.schedule_calls.filter (fun c => decide (c.core = co))).foldl (tq2Local a)
        (timerQueues1 a co) := by
  unfold schedOut
  exact foldl_proj (schedStep a) (tq2Local a) (fun c => decide (c.core = co))
    (fun st => st.2.1 co) (fun st c => schedStep_tq_proj a co st c) a.schedule_calls
    ((spawnOut a).1, timerQueues1 a, (spawnOut a).2)

theorem tqLocal_foldl_inv (a : App) :
    ∀ (L : List Call) (tq : TimerQueue), (∀ c ∈ L, (a.task c.name).isSome = true) →
      tq.ceiling = tq.priority →
      L.foldl (tqLocalStep a) (some tq) =
        some ⟨tq.capacity,
          L.foldl (fun acc c => max acc (a.taskPriority c.name)) tq.priority,
          L.foldl (fun acc c => max acc (a.taskPriority c.name)) tq.priority,
          tq.tasks ∪ (L.map Call.name).toFinset⟩ := by
  intro L
  induction L with
  | nil =>
      intro tq hL hceil
      cases tq with
      | mk cap ceil prio tasks =>
          dsimp only at hceil
          subst hceil
          simp
  | cons c L ih =>
      intro tq hL hceil
      obtain ⟨t, ht⟩ := Option.isSome_iff_exists.mp (hL c (by simp))
      have hstep : tqLocalStep a (some tq) c =
          some ⟨tq.capacity, max tq.priority t.priority, max tq.priority t.priority,
            insert c.name tq.tasks⟩ := by
        unfold tqLocalStep
        rw [ht]
        rfl
      rw [List.foldl_cons, hstep,
        ih _ (fun x hx => hL x (by simp [hx])) rfl]
      dsimp only
      rw [List.foldl_cons, taskPriority_eq a c.name t ht, List.map_cons, List.toFinset_cons,
        Finset.union_insert, Finset.insert_union]

theorem tq2_foldl (a : App) :
    ∀ (L : List Call) (tq : TimerQueue), (∀ c ∈ L, (a.task c.name).isSome = true) →
      L.foldl (tq2Local a) (some tq) =
        some { tq with ceiling := (L.filterMap Call.prio).foldl max tq.ceiling } := by
  intro L
  induction L with
  | nil =>
      intro tq hL
      cases tq
      rfl
  | cons c L ih =>
      intro tq hL
      obtain ⟨t, ht⟩ := Option.isSome_iff_exists.mp (hL c (by simp))
      have hrest : ∀ x ∈ L, (a.task x.name).isSome = true := fun x hx => hL x (by simp [hx])
      cases hp : c.prio with
      | some p =>
          have hstep : tq2Local a (some tq) c = some { tq with ceiling := max tq.ceiling p } := by
            unfold tq2Local
            rw [ht, hp]
          rw [List.foldl_cons, hstep, ih _ hrest, List.filterMap_cons, hp]
          rfl
      | none =>
          have hstep : tq2Local a (some tq) c = some tq := by
            unfold tq2Local
            rw [ht, hp]
          rw [List.foldl_cons, hstep, ih _ hrest, List.filterMap_cons, hp]

theorem foldl_max_init (l : List Nat) : ∀ x y : Nat, l.foldl max (max x y) = max x (l.foldl max y) := by
  induction l with
  | nil => intro x y; rfl
  | cons q l ih =>
      intro x y
      rw [List.foldl_cons, List.foldl_cons, max_assoc, ih]

theorem foldl_max_seed (l : List Nat) (x : Nat) : l.foldl max x = max x (maxList l) := by
  unfold maxList
  calc l.foldl max x = l.foldl max (max x 0) := by rw [Nat.max_zero]
    _ = max x (l.foldl max 0) := foldl_max_init l x 0

theorem foldl_max_init_f {α : Type} (g : α → Nat) (l : List α) :
    ∀ x y : Nat, l.foldl (fun acc c => max acc (g c)) (max x y) =
      max x (l.foldl (fun acc c => max acc (g c)) y) := by
  induction l with
  | nil => intro x y; rfl
  | cons q l ih =>
      intro x y
      rw [List.foldl_cons, List.foldl_cons]
      show l.foldl (fun acc c => max acc (g c)) (max (max x y) (g q)) = _
      rw [max_assoc, ih]

theorem le_foldl_max_f {α : Type} (g : α → Nat) (l : List α) :
    ∀ x : Nat, x ≤ l.foldl (fun acc c => max acc (g c)) x := by
  induction l with
  | nil => intro x; exact le_refl x
  | cons q l ih =>
      intro x
      exact le_trans (le_max_left x (g q)) (ih (max x (g q)))

/-- C10.  For every core that issues at least one schedule call (in a model
whose scheduled tasks are all declared): the timer queue exists, its priority
is the maximum of 1 and the highest priority among its schedulable tasks, its
ceiling is the maximum of that priority and every fixed scheduler call-site
priority contending for it, its task set is the set of tasks scheduled from
that core, and priority and ceiling are both at least 1 (the fresh queue
starts at priority 1, ceiling 1). -/
theorem timer_queue_priority_ceiling (a : App)
    (H : ∀ c ∈ a.schedule_calls, (a.task c.name).isSome = true) (co : Nat)
    (c0 : Call) (hc0 : c0 ∈ a.schedule_calls) (hcore : c0.core = co) :
    ∃ tq, timerQueues a co = some tq ∧
      tq.priority = max 1 (maxList ((a.schedule_calls.filter (fun c => decide (c.core = co))).map
        (fun c => a.taskPriority c.name))) ∧
      tq.ceiling = max tq.priority
        (maxList ((a.schedule_calls.filter (fun c => decide (c.core = co))).filterMap Call.prio)) ∧
      tq.tasks =
        ((a.schedule_calls.filter (fun c => decide (c.core = co))).map Call.name).toFinset ∧
      1 ≤ tq.priority ∧ 1 ≤ tq.ceiling := by
  have hLmem : c0 ∈ a.schedule_calls.filter (fun c => decide (c.core = co)) :=
    List.mem_filter.mpr ⟨hc0, by simpa using hcore⟩
  have hLtasks : ∀ c ∈ a.schedule_calls.filter (fun c => decide (c.core = co)),
      (a.task c.name).isSome = true :=
    fun c hcf => H c (List.mem_filter.mp hcf).1
  rcases hL : a.schedule_calls.filter (fun c => decide (c.core = co)) with - | ⟨d, L⟩
  · rw [hL] at hLmem
    simp at hLmem
  · rw [hL] at hLtasks
    obtain ⟨t0, ht0⟩ := Option.isSome_iff_exists.mp (hLtasks d (by simp))
    have hfirst : tqLocalStep a none d =
        some ⟨0, max 1 (a.taskPriority d.name), max 1 (a.taskPriority d.name),
          insert d.name ∅⟩ := by
      unfold tqLocalStep
      rw [ht0, taskPriority_eq a d.name t0 ht0]
      rfl
    have hpass1 : timerQueues1 a co =
        some ⟨0,
          L.foldl (fun acc c => max acc (a.taskPriority c.name)) (max 1 (a.taskPriority d.name)),
          L.foldl (fun acc c => max acc (a.taskPriority c.name)) (max 1 (a.taskPriority d.name)),
          insert d.name ∅ ∪ (L.map Call.name).toFinset⟩ := by
      rw [timerQueues1_proj a co, hL, List.foldl_cons, hfirst,
        tqLocal_foldl_inv a L _ (fun x hx => hLtasks x (by simp [hx])) rfl]
    have hpass2 : (schedOut a).2.1 co =
        some ⟨0,
          ((d :: L).filterMap Call.prio).foldl max
            (L.foldl (fun acc c => max acc (a.taskPriority c.name))
              (max 1 (a.taskPriority d.name))),
          L.foldl (fun acc c => max acc (a.taskPriority c.name)) (max 1 (a.taskPriority d.name)),
          insert d.name ∅ ∪ (L.map Call.name).toFinset⟩ := by
      rw [schedOut_tq_proj a co, hL, hpass1,
        tq2_foldl a (d :: L) _ hLtasks]
    rw [hL]
    refine ⟨⟨(∑ n ∈ (insert d.name ∅ ∪ (L.map Call.name).toFinset), a.taskCapacity n) % 256,
      ((d :: L).filterMap Call.prio).foldl max
        (L.foldl (fun acc c => max acc (a.taskPriority c.name)) (max 1 (a.taskPriority d.name))),
      L.foldl (fun acc c => max acc (a.taskPriority c.name)) (max 1 (a.taskPriority d.name)),
      insert d.name ∅ ∪ (L.map Call.name).toFinset⟩, ?_, ?_, ?_, ?_, ?_, ?_⟩
    · unfold timerQueues
      rw [hpass2]
      rfl
    · show L.foldl (fun acc c => max acc (a.taskPriority c.name))
          (max 1 (a.taskPriority d.name)) =
        max 1 (maxList ((d :: L).map fun c => a.taskPriority c.name))
      rw [List.map_cons, maxList_cons, List.foldl_map]
      exact foldl_max_init_f (fun c => a.taskPriority c.name) L 1 (a.taskPriority d.name)
    · show ((d :: L).filterMap Call.prio).foldl max
          (L.foldl (fun acc c => max acc (a.taskPriority c.name))
            (max 1 (a.taskPriority d.name))) =
        max (L.foldl (fun acc c => max acc (a.taskPriority c.name))
          (max 1 (a.taskPriority d.name))) (maxList ((d :: L).filterMap Call.prio))
      exact foldl_max_seed _ _
    · show insert d.name ∅ ∪ (L.map Call.name).toFinset =
        ((d :: L).map Call.name).toFinset
      rw [List.map_cons, List.toFinset_cons, Finset.insert_union, Finset.empty_union]
    · show 1 ≤ L.foldl (fun acc c => max acc (a.taskPriority c.name))
          (max 1 (a.taskPriority d.name))
      exact le_trans (le_max_left _ _) (le_foldl_max_f _ L _)
    · show 1 ≤ ((d :: L).filterMap Call.prio).foldl max
          (L.foldl (fun acc c => max acc (a.taskPriority c.name))
            (max 1 (a.taskPriority d.name)))
      exact le_trans (le_trans (le_max_left _ _) (le_foldl_max_f _ L _))
        (le_foldl_max _ _)

/-- Witness for C10 at a concrete model: core 0 of `appC10` schedules tasks of
priorities 3 and 5 (one call at fixed priority 6, one from init); its timer
queue has priority 5 and ceiling 6. -/
theorem timer_queue_priority_ceiling_witness :
    (timerQueues appC10 0).map TimerQueue.priority = some 5 ∧
      (timerQueues appC10 0).map TimerQueue.ceiling = some 6 := by
  obtain ⟨tq, htq, hp, hc, -, -, -⟩ :=
    timer_queue_priority_ceiling appC10 (by decide) 0 ⟨0, some 6, 1⟩ (by decide) rfl
  have h5 : tq.priority = 5 := by
    rw [hp]
    decide
  have h6 : tq.ceiling = 6 := by
    rw [hc, hp]
    decide
  rw [htq]
  simp [h5, h6]

/-! ### Late-resource partition (C4) -/

theorem late_foldl_f_mono :
    ∀ (l : List (Nat × InitArgs)) (st : LRState) (c n : Nat),
      n ∈ st.f c → n ∈ (l.foldl lateStep st).f c := by
  intro l
  induction l with
  | nil => intro st c n h; exact h
  | cons ci l ih =>
      intro st c n h
      rw [List.foldl_cons]
      apply ih
      unfold lateStep
      split_ifs with hE
      · exact h
      · dsimp only
        rcases eq_or_ne c ci.1 with hc | hc
        · subst hc
          rw [Function.update_same]
          exact Finset.mem_union_left _ h
        · rw [Function.update_noteq hc]
          exact h

theorem late_foldl_partition (decl : Finset Nat) :
    ∀ (l : List (Nat × InitArgs)) (st : LRState),
      st.pool ⊆ decl →
      (∀ n, n ∈ decl ↔ n ∈ st.pool ∨ ∃ c, n ∈ st.f c) →
      (∀ n c, n ∈ st.f c → n ∉ st.pool) →
      (∀ n c c2, n ∈ st.f c → n ∈ st.f c2 → c = c2) →
      (∀ c, st.rest = some c → st.f c = ∅) →
      (∀ ci ∈ l, ∀ n ∈ ci.2.late, n ∈ st.pool) →
      l.Pairwise (fun x y => ∀ n, n ∈ x.2.late → n ∉ y.2.late) →
      (∀ ci ∈ l, st.f ci.1 = ∅) →
      (l.map Prod.fst).Nodup →
      (∀ ci ∈ l, st.rest ≠ some ci.1) →
      (l.foldl lateStep st).pool ⊆ decl ∧
      (∀ n, n ∈ decl ↔ n ∈ (l.foldl lateStep st).pool ∨ ∃ c, n ∈ (l.foldl lateStep st).f c) ∧
      (∀ n c, n ∈ (l.foldl lateStep st).f c → n ∉ (l.foldl lateStep st).pool) ∧
      (∀ n c c2, n ∈ (l.foldl lateStep st).f c → n ∈ (l.foldl lateStep st).f c2 → c = c2) ∧
      (∀ c, (l.foldl lateStep st).rest = some c → (l.foldl lateStep st).f c = ∅) ∧
      (∀ ci ∈ l, ∀ n ∈ ci.2.late, ∃ c, n ∈ (l.foldl lateStep st).f c) ∧
      ((∃ ci ∈ l, ci.2.late.isEmpty = true) → (l.foldl lateStep st).rest ≠ none) ∧
      ((l.foldl lateStep st).rest = none → st.rest = none) := by
  intro l
  induction l with
  | nil =>
      intro st h0 h1 h2 h3 h6 h4 h5 h7 h8 h9
      refine ⟨h0, h1, h2, h3, h6, ?_, ?_, fun h => h⟩
      · intro ci hci
        simp at hci
      · rintro ⟨ci, hci, -⟩
        simp at hci
  | cons ci l ih =>
      intro st h0 h1 h2 h3 h6 h4 h5 h7 h8 h9
      rw [List.foldl_cons]
      have hpair := List.pairwise_cons.mp h5
      rw [List.map_cons] at h8
      obtain ⟨hnotmem, hnodupl⟩ := List.nodup_cons.mp h8
      by_cases hE : ci.2.late.isEmpty = true
      · -- init with an empty late list: only `rest` changes
        have hst : lateStep st ci = { st with rest := some ci.1 } := by
          unfold lateStep
          rw [if_pos hE]
        rw [hst]
        have hlatenil : ci.2.late = [] := List.isEmpty_iff.mp hE
        obtain ⟨K0, K1, K2, K3, K6, K5, K7, K8⟩ := ih { st with rest := some ci.1 }
          h0 h1 h2 h3
          (by
            intro c hc
            have hc2 : ci.1 = c := Option.some.inj hc
            exact hc2 ▸ h7 ci (by simp))
          (fun cj hcj => h4 cj (by simp [hcj]))
          hpair.2
          (fun cj hcj => h7 cj (by simp [hcj]))
          hnodupl
          (by
            intro cj hcj heq
            have hc2 : ci.1 = cj.1 := Option.some.inj heq
            exact hnotmem (hc2 ▸ List.mem_map_of_mem Prod.fst hcj))
        refine ⟨K0, K1, K2, K3, K6, ?_, ?_, ?_⟩
        · intro cj hcj n hn
          rcases List.mem_cons.mp hcj with h | h
          · subst h
            rw [hlatenil] at hn
            simp at hn
          · exact K5 cj h n hn
        · intro hex hnone
          exact Option.noConfusion (K8 hnone)
        · intro hnone
          exact Option.noConfusion (K8 hnone)
      · -- init with an explicit late list
        have hst : lateStep st ci =
            ⟨Function.update st.f ci.1 (st.f ci.1 ∪ ci.2.late.toFinset),
              insert ci.1 st.dom, st.pool \ ci.2.late.toFinset, st.rest⟩ := by
          unfold lateStep
          rw [if_neg hE]
        rw [hst]
        have hsubL : ci.2.late.toFinset ⊆ st.pool := by
          intro n hn
          exact h4 ci (by simp) n (List.mem_toFinset.mp hn)
        have hfmem : ∀ c n, n ∈ (Function.update st.f ci.1 (st.f ci.1 ∪ ci.2.late.toFinset)) c →
            n ∈ st.f c ∨ (c = ci.1 ∧ n ∈ ci.2.late.toFinset) := by
          intro c n hn
          rcases eq_or_ne c ci.1 with hc | hc
          · subst hc
            rw [Function.update_same] at hn
            rcases Finset.mem_union.mp hn with h | h
            · exact Or.inl h
            · exact Or.inr ⟨rfl, h⟩
          · rw [Function.update_noteq hc] at hn
            exact Or.inl hn
        obtain ⟨K0, K1, K2, K3, K6, K5, K7, K8⟩ :=
          ih ⟨Function.update st.f ci.1 (st.f ci.1 ∪ ci.2.late.toFinset),
              insert ci.1 st.dom, st.pool \ ci.2.late.toFinset, st.rest⟩
            (fun n hn => h0 (Finset.mem_sdiff.mp hn).1)
            (by
              intro n
              constructor
              · intro hd
                rcases (h1 n).mp hd with hp | ⟨c, hc⟩
                · by_cases hnL : n ∈ ci.2.late.toFinset
                  · refine Or.inr ⟨ci.1, ?_⟩
                    dsimp only
                    rw [Function.update_same]
                    exact Finset.mem_union_right _ hnL
                  · exact Or.inl (Finset.mem_sdiff.mpr ⟨hp, hnL⟩)
                · refine Or.inr ⟨c, ?_⟩
                  dsimp only
                  rcases eq_or_ne c ci.1 with hceq | hne
                  · subst hceq
                    rw [Function.update_same]
                    exact Finset.mem_union_left _ hc
                  · rw [Function.update_noteq hne]
                    exact hc
              · intro h
                rcases h with hp | ⟨c, hc⟩
                · exact h0 (Finset.mem_sdiff.mp hp).1
                · rcases hfmem c n hc with h | ⟨hceq, hL⟩
                  · exact (h1 n).mpr (Or.inr ⟨c, h⟩)
                  · exact h0 (hsubL hL))
            (by
              intro n c hc
              rcases hfmem c n hc with h | ⟨hceq, hL⟩
              · intro hp
                exact h2 n c h (Finset.mem_sdiff.mp hp).1
              · intro hp
                exact (Finset.mem_sdiff.mp hp).2 hL)
            (by
              intro n c c2 hc hc2
              rcases hfmem c n hc with h | ⟨hceq, hL⟩ <;>
                rcases hfmem c2 n hc2 with h2' | ⟨hceq2, hL2⟩
              · exact h3 n c c2 h h2'
              · exact absurd (hsubL hL2) (h2 n c h)
              · exact absurd (hsubL hL) (h2 n c2 h2')
              · rw [hceq, hceq2])
            (by
              intro c hc
              dsimp only at hc ⊢
              have hcne : c ≠ ci.1 := by
                intro heq
                exact h9 ci (by simp) (by rw [hc, heq])
              rw [Function.update_noteq hcne]
              exact h6 c hc)
            (by
              intro cj hcj n hn
              dsimp only
              refine Finset.mem_sdiff.mpr ⟨h4 cj (by simp [hcj]) n hn, ?_⟩
              intro hnL
              exact hpair.1 cj hcj n (List.mem_toFinset.mp hnL) hn)
            hpair.2
            (by
              intro cj hcj
              dsimp only
              have hne : cj.1 ≠ ci.1 := by
                intro heq
                exact hnotmem (heq ▸ List.mem_map_of_mem Prod.fst hcj)
              rw [Function.update_noteq hne]
              exact h7 cj (by simp [hcj]))
            hnodupl
            (fun cj hcj => h9 cj (by simp [hcj]))
        refine ⟨K0, K1, K2, K3, K6, ?_, ?_, K8⟩
        · intro cj hcj n hn
          rcases List.mem_cons.mp hcj with h | h
          · subst h
            refine ⟨cj.1, ?_⟩
            apply late_foldl_f_mono l _ cj.1 n
            dsimp only
            rw [Function.update_same]
            exact Finset.mem_union_right _ (List.mem_toFinset.mpr hn)
          · exact K5 cj h n hn
        · rintro ⟨cj, hcj, hEj⟩
          rcases List.mem_cons.mp hcj with h | h
          · subst h
            exact absurd hEj hE
          · exact K7 ⟨cj, h, hEj⟩

/-- C4.  For models whose inits are keyed by distinct cores, claim only
declared late resources, claim pairwise-disjoint explicit subsets, and either
contain an init that omits its late list or jointly cover the declared set
(all of which the repository's validation establishes): after late-resource
assignment every declared late resource appears in at least one core's subset,
every assigned resource is declared, and no resource appears in two different
cores' subsets — the subsets partition the declared late-resource set. -/
theorem late_resource_partition (a : App)
    (hnodup : (a.inits.map Prod.fst).Nodup)
    (hsub : ∀ ci ∈ a.inits, ∀ n ∈ ci.2.late, n ∈ a.declaredLate)
    (hdisj : a.inits.Pairwise (fun x y => ∀ n, n ∈ x.2.late → n ∉ y.2.late))
    (hcover : (∃ ci ∈ a.inits, ci.2.late.isEmpty = true) ∨
      ∀ n ∈ a.declaredLate, ∃ ci ∈ a.inits, n ∈ ci.2.late) :
    (∀ c n, n ∈ (lateResourcesMap a).f c → n ∈ a.declaredLate) ∧
    (∀ n ∈ a.declaredLate, ∃ c, n ∈ (lateResourcesMap a).f c) ∧
    (∀ n c c2, n ∈ (lateResourcesMap a).f c → n ∈ (lateResourcesMap a).f c2 → c = c2) := by
  unfold lateResourcesMap
  split_ifs with hcase
  · have hd : a.declaredLate = ∅ := by
      unfold App.declaredLate
      rw [List.isEmpty_iff.mp hcase]
      rfl
    refine ⟨?_, ?_, ?_⟩
    · intro c n hn
      simp at hn
    · intro n hn
      rw [hd] at hn
      simp at hn
    · intro n c c2 hn
      simp at hn
  · dsimp only
    obtain ⟨K0, K1, K2, K3, K6, K5, K7, K8⟩ :=
      late_foldl_partition a.declaredLate a.inits ⟨fun _ => ∅, ∅, a.declaredLate, none⟩
        (fun n hn => hn)
        (by
          intro n
          constructor
          · intro h
            exact Or.inl h
          · rintro (h | ⟨c, hc⟩)
            · exact h
            · simp at hc)
        (by intro n c hc; simp at hc)
        (by intro n c c2 hc; simp at hc)
        (by intro c hc; exact Option.noConfusion hc)
        hsub
        hdisj
        (fun ci hci => rfl)
        hnodup
        (by intro ci hci h; exact Option.noConfusion h)
    cases hrest : (a.inits.foldl lateStep ⟨fun _ => ∅, ∅, a.declaredLate, none⟩).rest with
    | none =>
        dsimp only
        refine ⟨?_, ?_, ?_⟩
        · intro c n hn
          exact (K1 n).mpr (Or.inr ⟨c, hn⟩)
        · intro n hn
          rcases hcover with ⟨ci, hci, hEi⟩ | hcov
          · exact absurd hrest (K7 ⟨ci, hci, hEi⟩)
          · obtain ⟨ci, hci, hn2⟩ := hcov n hn
            exact K5 ci hci n hn2
        · exact fun n c c2 => K3 n c c2
    | some c0 =>
        have hf0 := K6 c0 hrest
        dsimp only
        refine ⟨?_, ?_, ?_⟩
        · intro c n hn
          rcases eq_or_ne c c0 with he | hne
          · subst he
            rw [Function.update_same] at hn
            exact K0 hn
          · rw [Function.update_noteq hne] at hn
            exact (K1 n).mpr (Or.inr ⟨c, hn⟩)
        · intro n hn
          rcases (K1 n).mp hn with hp | ⟨c, hc⟩
          · refine ⟨c0, ?_⟩
            rw [Function.update_same]
            exact hp
          · rcases eq_or_ne c c0 with he | hne
            · subst he
              rw [hf0] at hc
              simp at hc
            · refine ⟨c, ?_⟩
              rw [Function.update_noteq hne]
              exact hc
        · intro n c c2 hn hn2
          rcases eq_or_ne c c0 with he | hne
          · subst he
            rcases eq_or_ne c2 c with he2 | hne2
            · rw [he2]
            · rw [Function.update_same] at hn
              rw [Function.update_noteq hne2] at hn2
              exact absurd hn (K2 n c2 hn2)
          · rcases eq_or_ne c2 c0 with he2 | hne2
            · subst he2
              rw [Function.update_same] at hn2
              rw [Function.update_noteq hne] at hn
              exact absurd hn2 (K2 n c hn)
            · rw [Function.update_noteq hne] at hn
              rw [Function.update_noteq hne2] at hn2
              exact K3 n c c2 hn hn2

/-- Witness for C4 at a concrete model: in `appC4` (late resources 1, 2, 3;
init 0 claims [1], init 1 omits its list) resource 2 is declared and assigned
to some core. -/
theorem late_resource_partition_witness :
    2 ∈ appC4.declaredLate ∧ ∃ c, 2 ∈ (lateResourcesMap appC4).f c := by
  have h := late_resource_partition appC4 (by decide) (by decide) (by decide) (by decide)
  exact ⟨by decide, h.2.1 2 (by decide)⟩

end Rtfm
